import Mathlib

/-!
Verification development for the planet tile downloader
(`planet_downloader.py`).  The program enumerates slippy-map tiles
covering a bounding box, fetches each tile over HTTP, georeferences it,
and merges all tiles into one mosaic with a two-level batched reduction
(`merge_in_batches`).  Pure fragments of the Python source are embedded
as Lean functions; the effectful steps (HTTP, image decode, file write)
are modelled by explicit oracle parameters; behaviours supplied by
external libraries absent from the repository (rasterio's compositing,
mercantile's enumeration) are modelled from the specification, as noted
on each definition.
-/

namespace PlanetDownloader

/-! ## Rasters on the global pixel grid

All tiles of one zoom level live on a single aligned integer pixel
grid, so a georeferenced raster is modelled as a rectangular extent on
`ℤ × ℤ` together with a pixel function that is `none` (nodata) outside
the data it carries.  The affine transform of a raster is determined by
its extent, so extent equality models transform equality. -/

/-- A rectangle of pixel indices, half-open: it contains `(x, y)` with
`x0 ≤ x < x1` and `y0 ≤ y < y1`. -/
structure Rect where
  x0 : ℤ
  y0 : ℤ
  x1 : ℤ
  y1 : ℤ
deriving DecidableEq, Repr

/-- Membership of a pixel index in a rectangle. -/
def Rect.contains (r : Rect) (x y : ℤ) : Bool :=
  decide (r.x0 ≤ x) && decide (x < r.x1) && decide (r.y0 ≤ y) && decide (y < r.y1)

/-- Bounding rectangle of two rectangles (the output extent rasterio's
merge allocates for two inputs). -/
def Rect.union (r s : Rect) : Rect :=
  ⟨min r.x0 s.x0, min r.y0 s.y0, max r.x1 s.x1, max r.y1 s.y1⟩

/-- A georeferenced raster: an extent on the global grid of its zoom
level and a pixel function; `none` is the nodata/empty sample. -/
structure Raster (V : Type) where
  ext : Rect
  px : ℤ → ℤ → Option V

/-- A raster is proper when it carries no sample outside its extent.
Every raster written by the program (a downloaded tile, a batch mosaic)
is proper. -/
def Raster.Proper {V : Type} (r : Raster V) : Prop :=
  ∀ x y : ℤ, r.ext.contains x y = false → r.px x y = none

/-- Paint a source raster's pixels onto an accumulator, only where the
accumulator is still empty.  Modelled from the spec: this is the
per-dataset step of rasterio's `merge` (`copy_first`): "later
overlapping tiles never overwrite an already-filled pixel". -/
def paintOn {V : Type} (acc src : ℤ → ℤ → Option V) : ℤ → ℤ → Option V :=
  fun x y =>
    match acc x y with
    | some v => some v
    | none => src x y

/-- Composite a list of pixel functions in order, starting from an
all-nodata canvas. -/
def foldPaint {V : Type} (ds : List (Raster V)) : ℤ → ℤ → Option V :=
  ds.foldl (fun acc d => paintOn acc d.px) (fun _ _ => none)

/-- The first non-`none` entry of a list of optional samples. -/
def firstSome {V : Type} : List (Option V) → Option V
  | [] => none
  | o :: rest =>
    match o with
    | some v => some v
    | none => firstSome rest

/-- Extent of the output grid for a non-empty list of rasters: the
bounding rectangle of all input extents (junk value for `[]`, where the
library call raises instead). -/
def unionExt {V : Type} : List (Raster V) → Rect
  | [] => ⟨0, 0, 0, 0⟩
  | r :: rs => rs.foldl (fun acc s => acc.union s.ext) r.ext

/-- Modelled from the spec: `rasterio.merge.merge` (external library,
not in `src/`).  "Compositing all tiles in the group onto a common
output grid whose extent is the union of their geographic bounds",
where "the first dataset in group order that provides a non-empty
(non-nodata) sample at that pixel wins".  An empty dataset list makes
the library raise, modelled as `none`. -/
def mergeRasters {V : Type} (ds : List (Raster V)) : Option (Raster V) :=
  match ds with
  | [] => none
  | _ :: _ =>
      some ⟨unionExt ds,
        fun x y => if (unionExt ds).contains x y then foldPaint ds x y else none⟩

/-- The raster produced by a successful merge: union extent, first-wins
pixels, read back as nodata outside the allocated output grid. -/
def mergedRaster {V : Type} (ds : List (Raster V)) : Raster V :=
  ⟨unionExt ds, fun x y => if (unionExt ds).contains x y then foldPaint ds x y else none⟩

/-! ## The two-level batched merge of `planet_downloader.py`

`merge_in_batches(paths, batch_size)` (src/planet_downloader.py,
lines 56–94) slices `paths` into consecutive chunks of at most
`batch_size`, opens each path of a chunk (skipping paths that fail to
open), merges each non-empty chunk into a batch mosaic kept on scratch
storage, and finally merges all batch mosaics.  A path is modelled by
its open result: `some r` when `rasterio.open` yields raster `r`,
`none` when opening raises.  The scratch persist-and-reload round trip
of a batch mosaic is modelled from the spec as the identity on the
abstract raster. -/

/-- Consecutive chunks `paths[i:i+bs]` of the loop
`for i in range(0, len(paths), batch_size)`. -/
def chunks {α : Type} (bs : ℕ) : List α → List (List α)
  | [] => []
  | x :: rest => (x :: rest.take (bs - 1)) :: chunks bs (rest.drop (bs - 1))
termination_by l => l.length
decreasing_by
  simp only [List.length_drop, List.length_cons]
  omega

/-- The datasets a batch's open loop collects: open results in order,
failed opens skipped. -/
def openAll {V : Type} (batch : List (Option (Raster V))) : List (Raster V) :=
  batch.filterMap id

/-- Embedding of `merge_in_batches` (src/planet_downloader.py,
lines 56–94): per chunk, open what can be opened, skip a chunk whose
datasets list is empty (`if not datasets: continue`), merge the chunk
into a batch mosaic, then merge all batch mosaics; `none` models the
exception escaping the function (the final `merge` of an empty list
raises). -/
def merge_in_batches {V : Type} (tiles : List (Option (Raster V))) (bs : ℕ) :
    Option (Raster V) :=
  mergeRasters ((chunks bs tiles).filterMap (fun b => mergeRasters (openAll b)))

/-! ## The driver's post-fetch phase -/

/-- Outcome of the tail of `main`: early return with no images, a
caught merge/save exception, or a written output mosaic. -/
inductive MainResult (V : Type) where
  | noImages : MainResult V
  | mergeError : MainResult V
  | written : Raster V → MainResult V

/-- Embedding of the tail of `main` (src/planet_downloader.py,
lines 127–158): return early printing "No images downloaded." when the
collected path list is empty; otherwise run `merge_in_batches` with the
default batch size 500 and write the result, any exception in that
`try` yielding the terminal "Error during merging or saving" outcome.
`openPath` models `rasterio.open` on the scratch tile paths. -/
def mainAfterFetch {V : Type} (openPath : String → Option (Raster V))
    (paths : List String) : MainResult V :=
  if paths.isEmpty then .noImages
  else
    match merge_in_batches (paths.map openPath) 500 with
    | none => .mergeError
    | some m => .written m

/-! ## The fetch pipeline

`download_and_save_tile` (src/planet_downloader.py, lines 20–53) runs
HTTP GET, status check, image decode, transform construction and
GeoTIFF write inside a single `try`; the effectful steps are modelled
by oracle fields of `FetchEnv`. -/

/-- A slippy-map tile coordinate, as in `mercantile.Tile`. -/
structure Tile where
  z : ℕ
  x : ℕ
  y : ℕ
deriving DecidableEq, Repr

/-- An HTTP response as `requests` delivers it: final status code and
raw body bytes. -/
structure HttpResponse where
  status : ℕ
  content : List ℕ
deriving DecidableEq, Repr

/-- A decoded image after `Image.open(BytesIO(...)).convert("RGB")`:
dimensions and 3-channel 8-bit samples. -/
structure Img where
  width : ℕ
  height : ℕ
  pix : ℕ → ℕ → ℕ × ℕ × ℕ

/-- An affine georeferencing transform: pixel `(col, row)` maps to
`(a·col + b·row + c, d·col + e·row + f)`. -/
structure AffineT where
  a : ℚ
  b : ℚ
  c : ℚ
  d : ℚ
  e : ℚ
  f : ℚ
deriving DecidableEq, Repr

/-- Apply an affine transform to a pixel position. -/
def AffineT.apply (t : AffineT) (col row : ℚ) : ℚ × ℚ :=
  (t.a * col + t.b * row + t.c, t.d * col + t.e * row + t.f)

/-- Modelled from the spec: `rasterio.transform.from_bounds` (external
library, not in src/): "the affine transform mapping the image's pixel
grid onto that bounding box, assuming uniform pixel sampling across the
tile's width and height" — origin at the north-west corner, pixel width
`(east−west)/width`, pixel height `(south−north)/height`. -/
def from_bounds (w s e n : ℚ) (width height : ℕ) : AffineT :=
  ⟨(e - w) / width, 0, w, 0, (s - n) / height, n⟩

/-- A geographic bounding box in the normalized Web-Mercator plane:
longitude maps exactly to `x = (lon+180)/360 ∈ [0,1]` and the
(transcendental, strictly decreasing) Mercator latitude projection maps
the valid latitude range onto `y ∈ [0,1]`, `y` growing southward.  All
tile geometry is stated in this plane, where it is exact. -/
structure BoundsN where
  west : ℚ
  south : ℚ
  east : ℚ
  north : ℚ
deriving DecidableEq, Repr

/-- Modelled from the spec: `mercantile.bounds` (external library, not
in src/) — "the tile's geographic bounding box from its coordinate
(inverse of the enumeration projection)", in the normalized plane: tile
`(z, x, y)` spans `[x/2^z, (x+1)/2^z] × [y/2^z, (y+1)/2^z]`. -/
def tileBoundsN (t : Tile) : BoundsN :=
  ⟨(t.x : ℚ) / 2 ^ t.z, ((t.y : ℚ) + 1) / 2 ^ t.z,
    ((t.x : ℚ) + 1) / 2 ^ t.z, (t.y : ℚ) / 2 ^ t.z⟩

/-- The transform `download_and_save_tile` builds for a decoded image:
`from_bounds(tile_bounds.west, tile_bounds.south, tile_bounds.east,
tile_bounds.north, img.width, img.height)`. -/
def mkTransform (t : Tile) (img : Img) : AffineT :=
  from_bounds (tileBoundsN t).west (tileBoundsN t).south (tileBoundsN t).east
    (tileBoundsN t).north img.width img.height

/-- A georeferenced scratch tile as persisted by the fetch step, keyed
by its coordinate. -/
structure SavedTile where
  key : Tile
  img : Img
  transform : AffineT

/-- The effect oracles one fetch interacts with: the HTTP GET result
(an `error` models a raised network/timeout exception), the image
decode, and the GeoTIFF write. -/
structure FetchEnv where
  get : Except String HttpResponse
  decode : List ℕ → Except String Img
  writeTiff : SavedTile → Except String Unit

/-- `response.raise_for_status()` of `requests`: raises `HTTPError` for
status codes 400–599, otherwise returns the response unchanged. -/
def raise_for_status (r : HttpResponse) : Except String HttpResponse :=
  if 400 ≤ r.status ∧ r.status < 600 then Except.error "HTTPError" else Except.ok r

/-- The body of the `try` block of `download_and_save_tile`
(src/planet_downloader.py, lines 21–48): GET with timeout,
`raise_for_status`, decode to RGB, build the transform from the tile's
bounds and the image's dimensions, persist; each step propagates its
error. -/
def download_body (t : Tile) (env : FetchEnv) : Except String SavedTile :=
  match env.get with
  | Except.error e => Except.error e
  | Except.ok resp =>
      match raise_for_status resp with
      | Except.error e => Except.error e
      | Except.ok resp2 =>
          match env.decode resp2.content with
          | Except.error e => Except.error e
          | Except.ok img =>
              match env.writeTiff ⟨t, img, mkTransform t img⟩ with
              | Except.error e => Except.error e
              | Except.ok _ => Except.ok ⟨t, img, mkTransform t img⟩

/-- Embedding of `download_and_save_tile` (src/planet_downloader.py,
lines 20–53): the whole body runs inside one `try`; any raised error is
caught, printed with the tile coordinate and reason, and turned into
`None`; success returns the scratch artifact. -/
def download_and_save_tile (t : Tile) (env : FetchEnv) : Option SavedTile :=
  match download_body t env with
  | Except.ok st => some st
  | Except.error _ => none

/-- One run of the fan-out/fan-in loop of `main`
(src/planet_downloader.py, lines 120–126): every submitted tile is
awaited, a truthy result is appended to `paths`, and each failure was
printed by `download_and_save_tile` as its coordinate plus reason
(collected here as the failure report).  Completion order is abstracted
as list order; no fetch depends on another. -/
def runFetches (jobs : List (Tile × FetchEnv)) :
    List SavedTile × List (Tile × String) :=
  (jobs.filterMap (fun j => download_and_save_tile j.1 j.2),
   jobs.filterMap (fun j =>
      match download_body j.1 j.2 with
      | Except.error e => some (j.1, e)
      | Except.ok _ => none))

/-! ## The tile enumerator

Modelled from the spec: the program obtains its tile list from
`mercantile.tiles` (external library, not in src/).  Per the spec,
"column = floor(2^zoom · (lon+180)/360); row computed from the
Mercator-projected latitude, then enumerate the integer column/row
rectangle between the min and max indices, clipped to `[0, 2^zoom)`",
in "row-major, ascending row then column" order.  Geometry is stated in
the normalized plane of `BoundsN`. -/

/-- The exact longitude half of the slippy-map projection. -/
def lonToX (lon : ℚ) : ℚ := (lon + 180) / 360

/-- Clip a tile index to `[0, 2^zoom)`. -/
def clipIndex (z : ℕ) (i : ℤ) : ℤ := min ((2 : ℤ) ^ z - 1) (max 0 i)

/-- The clipped tile index of a normalized coordinate:
`floor(2^zoom · c)` clipped to `[0, 2^zoom)`. -/
def tileIndex (z : ℕ) (c : ℚ) : ℤ := clipIndex z ⌊(2 ^ z : ℚ) * c⌋

/-- The inclusive integer range `[a, b]` as a list. -/
def rangeZ (a b : ℤ) : List ℤ :=
  (List.range (b + 1 - a).toNat).map (fun (i : ℕ) => a + (i : ℤ))

/-- Modelled from the spec: the TileEnumerator — the integer column/row
rectangle between the indices of the box's corners, row-major. -/
def enumerateTiles (z : ℕ) (b : BoundsN) : List (ℤ × ℤ) :=
  (rangeZ (tileIndex z b.north) (tileIndex z b.south)).flatMap (fun r =>
    (rangeZ (tileIndex z b.west) (tileIndex z b.east)).map (fun c => (c, r)))

/-- The closed normalized footprint of tile `(c, r)` at zoom `z`,
used to state that the enumerated tiles cover the box. -/
def inFootprint (z : ℕ) (c r : ℤ) (p q : ℚ) : Prop :=
  (c : ℚ) / 2 ^ z ≤ p ∧ p ≤ ((c : ℚ) + 1) / 2 ^ z ∧
  (r : ℚ) / 2 ^ z ≤ q ∧ q ≤ ((r : ℚ) + 1) / 2 ^ z

/-- Row-major ordering on `(column, row)` coordinates: earlier rows
first, then earlier columns within a row. -/
def rowMajorLt (a b : ℤ × ℤ) : Prop := a.2 < b.2 ∨ (a.2 = b.2 ∧ a.1 < b.1)

/-- A concrete test raster: one constant sample value on a rectangle,
nodata elsewhere (used to instantiate the merge theorems). -/
def constRaster (re : Rect) (v : ℕ) : Raster ℕ :=
  ⟨re, fun x y => if re.contains x y then some v else none⟩

/-- A concrete 2×2 black test image (used to instantiate the fetch
theorems). -/
def imgW : Img := ⟨2, 2, fun _ _ => (0, 0, 0)⟩

/-- A concrete fetch environment whose steps all succeed, delivering
`imgW` (used to instantiate the fetch theorems). -/
def envW : FetchEnv :=
  ⟨Except.ok ⟨200, []⟩, fun _ => Except.ok imgW, fun _ => Except.ok ()⟩

/-- The scratch tile `envW` produces for tile (1, 0, 0). -/
def stW : SavedTile := ⟨⟨1, 0, 0⟩, imgW, mkTransform ⟨1, 0, 0⟩ imgW⟩

/-! ## Basic lemmas about the compositing model -/

theorem firstSome_append {V : Type} (l1 l2 : List (Option V)) :
    firstSome (l1 ++ l2) =
      match firstSome l1 with
      | some v => some v
      | none => firstSome l2 := by
  induction l1 with
  | nil => simp [firstSome]
  | cons o rest ih => cases o <;> simp [firstSome, ih]

theorem firstSome_eq_none_iff {V : Type} (l : List (Option V)) :
    firstSome l = none ↔ ∀ o ∈ l, o = none := by
  induction l with
  | nil => simp [firstSome]
  | cons o rest ih => cases o <;> simp [firstSome, ih]

theorem firstSome_map_firstSome {V : Type} (cs : List (List (Option V))) :
    firstSome (cs.map firstSome) = firstSome cs.flatten := by
  induction cs with
  | nil => rfl
  | cons c rest ih =>
      simp only [List.map_cons, List.flatten_cons, firstSome_append, ← ih]
      cases hc : firstSome c <;> simp [firstSome, hc]

theorem foldl_paint_eq {V : Type} (ds : List (Raster V)) (acc : ℤ → ℤ → Option V)
    (x y : ℤ) :
    (ds.foldl (fun a d => paintOn a d.px) acc) x y =
      match acc x y with
      | some v => some v
      | none => firstSome (ds.map (fun d => d.px x y)) := by
  induction ds generalizing acc with
  | nil => cases h : acc x y <;> simp [firstSome, h]
  | cons d rest ih =>
      simp only [List.foldl_cons, List.map_cons]
      rw [ih]
      cases h : acc x y with
      | some v => simp [paintOn, h]
      | none => cases hd : d.px x y <;> simp [paintOn, h, hd, firstSome]

theorem foldPaint_eq_firstSome {V : Type} (ds : List (Raster V)) (x y : ℤ) :
    foldPaint ds x y = firstSome (ds.map (fun d => d.px x y)) := by
  simpa using foldl_paint_eq ds (fun _ _ => none) x y

theorem Rect.union_assoc (a b c : Rect) : (a.union b).union c = a.union (b.union c) := by
  simp [Rect.union, min_assoc, max_assoc]

theorem Rect.contains_union_left {a : Rect} (b : Rect) {x y : ℤ}
    (h : a.contains x y = true) : (a.union b).contains x y = true := by
  simp only [Rect.contains, Rect.union, Bool.and_eq_true, decide_eq_true_eq] at h ⊢
  omega

theorem Rect.contains_union_right (a : Rect) {b : Rect} {x y : ℤ}
    (h : b.contains x y = true) : (a.union b).contains x y = true := by
  simp only [Rect.contains, Rect.union, Bool.and_eq_true, decide_eq_true_eq] at h ⊢
  omega

theorem contains_foldl_of_init {V : Type} (rs : List (Raster V)) (init : Rect)
    {x y : ℤ} (h : init.contains x y = true) :
    (rs.foldl (fun acc s => acc.union s.ext) init).contains x y = true := by
  induction rs generalizing init with
  | nil => exact h
  | cons s rest ih => exact ih _ (Rect.contains_union_left _ h)

theorem contains_foldl_of_mem {V : Type} {rs : List (Raster V)} {r : Raster V}
    (hr : r ∈ rs) {x y : ℤ} (h : r.ext.contains x y = true) :
    ∀ init : Rect, (rs.foldl (fun acc s => acc.union s.ext) init).contains x y = true := by
  induction rs with
  | nil => cases hr
  | cons s rest ih =>
      intro init
      simp only [List.foldl_cons]
      rcases List.mem_cons.mp hr with rfl | hr'
      · exact contains_foldl_of_init rest _ (Rect.contains_union_right init h)
      · exact ih hr' _

theorem contains_unionExt_of_mem {V : Type} {ds : List (Raster V)} {r : Raster V}
    (hr : r ∈ ds) {x y : ℤ} (h : r.ext.contains x y = true) :
    (unionExt ds).contains x y = true := by
  match ds with
  | [] => cases hr
  | a :: as =>
      rcases List.mem_cons.mp hr with rfl | hr'
      · exact contains_foldl_of_init _ _ h
      · exact contains_foldl_of_mem hr' h _

theorem foldl_union_init {V : Type} (rs : List (Raster V)) (a b : Rect) :
    rs.foldl (fun acc s => acc.union s.ext) (a.union b) =
      a.union (rs.foldl (fun acc s => acc.union s.ext) b) := by
  induction rs generalizing b with
  | nil => rfl
  | cons r rest ih => simp only [List.foldl_cons, Rect.union_assoc, ih]

theorem unionExt_cons {V : Type} (r : Raster V) (rs : List (Raster V)) (h : rs ≠ []) :
    unionExt (r :: rs) = r.ext.union (unionExt rs) := by
  match rs with
  | [] => exact absurd rfl h
  | s :: rest =>
      show (s :: rest).foldl (fun acc t => acc.union t.ext) r.ext = _
      simp only [List.foldl_cons, foldl_union_init]
      rfl

theorem unionExt_append {V : Type} (l1 l2 : List (Raster V)) (h1 : l1 ≠ [])
    (h2 : l2 ≠ []) : unionExt (l1 ++ l2) = (unionExt l1).union (unionExt l2) := by
  match l1, l2 with
  | a :: as, c :: cs =>
      have hstep : unionExt ((a :: as) ++ c :: cs) =
          (c :: cs).foldl (fun acc s => acc.union s.ext)
            (as.foldl (fun acc s => acc.union s.ext) a.ext) := by
        show (as ++ c :: cs).foldl (fun acc s => acc.union s.ext) a.ext = _
        rw [List.foldl_append]
      rw [hstep]
      simp only [List.foldl_cons, foldl_union_init]
      rfl

theorem mergeRasters_of_ne_nil {V : Type} {ds : List (Raster V)} (h : ds ≠ []) :
    mergeRasters ds = some (mergedRaster ds) := by
  match ds with
  | _ :: _ => rfl

theorem mergeRasters_eq_none_iff {V : Type} (ds : List (Raster V)) :
    mergeRasters ds = none ↔ ds = [] := by
  match ds with
  | [] => simp [mergeRasters]
  | _ :: _ => simp [mergeRasters]

theorem mergedRaster_proper {V : Type} (ds : List (Raster V)) :
    (mergedRaster ds).Proper := by
  intro x y hxy
  simp only [mergedRaster] at hxy ⊢
  simp [hxy]

theorem mergedRaster_px {V : Type} {ds : List (Raster V)} (hp : ∀ r ∈ ds, r.Proper)
    (x y : ℤ) :
    (mergedRaster ds).px x y = firstSome (ds.map (fun d => d.px x y)) := by
  by_cases hc : (unionExt ds).contains x y = true
  · simp [mergedRaster, hc, foldPaint_eq_firstSome]
  · have hnone : firstSome (ds.map (fun d => d.px x y)) = none := by
      rw [firstSome_eq_none_iff]
      intro o ho
      rcases List.mem_map.mp ho with ⟨r, hr, rfl⟩
      cases hcr : r.ext.contains x y with
      | false => exact hp r hr x y hcr
      | true => exact absurd (contains_unionExt_of_mem hr hcr) hc
    simp [mergedRaster, hc, hnone]

/-! ## Lemmas about the chunking loop -/

theorem chunks_nil {α : Type} (bs : ℕ) : chunks bs ([] : List α) = [] := by
  simp [chunks]

theorem chunks_cons {α : Type} (bs : ℕ) (x : α) (rest : List α) :
    chunks bs (x :: rest) =
      (x :: rest.take (bs - 1)) :: chunks bs (rest.drop (bs - 1)) := by
  simp [chunks]

theorem mem_chunks_ne_nil {α : Type} (bs : ℕ) (l : List α) {c : List α}
    (hc : c ∈ chunks bs l) : c ≠ [] := by
  induction l using chunks.induct bs with
  | case1 => rw [chunks_nil] at hc; cases hc
  | case2 x rest ih =>
      rw [chunks_cons] at hc
      rcases List.mem_cons.mp hc with rfl | hc'
      · simp
      · exact ih hc'

theorem flatten_chunks {α : Type} (bs : ℕ) (l : List α) :
    (chunks bs l).flatten = l := by
  induction l using chunks.induct bs with
  | case1 => rw [chunks_nil]; rfl
  | case2 x rest ih =>
      rw [chunks_cons]
      simp only [List.flatten_cons, ih]
      simp [List.take_append_drop]

theorem chunks_map {α β : Type} (f : α → β) (bs : ℕ) (l : List α) :
    chunks bs (l.map f) = (chunks bs l).map (List.map f) := by
  induction l using chunks.induct bs with
  | case1 => simp [chunks_nil]
  | case2 x rest ih =>
      rw [List.map_cons, chunks_cons, chunks_cons]
      simp only [List.map_cons, ← List.map_take, ← List.map_drop, ih]

theorem chunks_ne_nil {α : Type} (bs : ℕ) {l : List α} (h : l ≠ []) :
    chunks bs l ≠ [] := by
  match l with
  | x :: rest => rw [chunks_cons]; simp

theorem chunks_eq_single {α : Type} {bs : ℕ} {l : List α} (h0 : l ≠ [])
    (hle : l.length ≤ bs) : chunks bs l = [l] := by
  match l with
  | x :: rest =>
      rw [chunks_cons]
      have hlen : rest.length ≤ bs - 1 := by
        simp only [List.length_cons] at hle
        omega
      rw [List.take_of_length_le hlen, List.drop_of_length_le hlen, chunks_nil]

/-! ## The two-level merge computes the single-pass merge -/

theorem Raster.eq_of {V : Type} {r s : Raster V} (he : r.ext = s.ext)
    (hpx : ∀ x y, r.px x y = s.px x y) : r = s := by
  cases r with | mk e p =>
  cases s with | mk e2 p2 =>
  simp only at he hpx
  subst he
  have hfun : p = p2 := funext fun x => funext fun y => hpx x y
  rw [hfun]

theorem flatten_ne_nil {V : Type} {cs : List (List (Raster V))} (h : cs ≠ [])
    (hne : ∀ c ∈ cs, c ≠ []) : cs.flatten ≠ [] := by
  match cs with
  | c :: rest =>
      intro hflat
      rw [List.flatten_cons] at hflat
      rcases List.append_eq_nil.mp hflat with ⟨h1, _⟩
      exact hne c (by simp) h1

theorem unionExt_map_merged {V : Type} (cs : List (List (Raster V)))
    (hne : ∀ c ∈ cs, c ≠ []) :
    unionExt (cs.map mergedRaster) = unionExt cs.flatten := by
  induction cs with
  | nil => rfl
  | cons c rest ih =>
      have hc : c ≠ [] := hne c (by simp)
      have hne' : ∀ d ∈ rest, d ≠ [] := fun d hd => hne d (List.mem_cons_of_mem _ hd)
      match rest with
      | [] =>
          simp only [List.map_cons, List.map_nil, List.flatten_cons, List.flatten_nil,
            List.append_nil]
          rfl
      | r :: rs =>
          have hmapne : ((r :: rs).map mergedRaster) ≠ [] := by simp
          have hflatne : (r :: rs).flatten ≠ [] := flatten_ne_nil (by simp) hne'
          rw [List.map_cons, unionExt_cons _ _ hmapne, List.flatten_cons,
            unionExt_append c _ hc hflatne, ih hne']
          rfl

theorem mergeRasters_map_merged {V : Type} (cs : List (List (Raster V)))
    (hne : ∀ c ∈ cs, c ≠ [])
    (hp : ∀ c ∈ cs, ∀ r ∈ c, r.Proper) :
    mergeRasters (cs.map mergedRaster) = mergeRasters cs.flatten := by
  match cs with
  | [] => rfl
  | c :: rest =>
      have hmapne : ((c :: rest).map mergedRaster) ≠ [] := by simp
      have hflatne : (c :: rest).flatten ≠ [] := flatten_ne_nil (by simp) hne
      rw [mergeRasters_of_ne_nil hmapne, mergeRasters_of_ne_nil hflatne]
      congr 1
      apply Raster.eq_of
      · exact unionExt_map_merged _ hne
      · intro x y
        have hpm : ∀ m ∈ (c :: rest).map mergedRaster, m.Proper := by
          intro m hm
          rcases List.mem_map.mp hm with ⟨d, _, rfl⟩
          exact mergedRaster_proper d
        have hpf : ∀ r ∈ (c :: rest).flatten, r.Proper := by
          intro r hr
          rcases List.mem_flatten.mp hr with ⟨d, hd, hrd⟩
          exact hp d hd r hrd
        rw [mergedRaster_px hpm x y, mergedRaster_px hpf x y, List.map_map]
        have hinner : (c :: rest).map ((fun d => d.px x y) ∘ mergedRaster) =
            (c :: rest).map (fun d => firstSome (d.map (fun t => t.px x y))) :=
          List.map_congr_left (fun d hd => mergedRaster_px (hp d hd) x y)
        rw [hinner]
        have houter : (c :: rest).map (fun d => firstSome (d.map (fun t => t.px x y))) =
            ((c :: rest).map (List.map (fun t => t.px x y))).map firstSome := by
          rw [List.map_map]
          rfl
        rw [houter, firstSome_map_firstSome, ← List.map_flatten]

theorem openAll_map_some {V : Type} (c : List (Raster V)) : openAll (c.map some) = c := by
  simp [openAll, List.filterMap_map]

/-- Core equivalence: on a list of tiles that all open successfully and
carry no data outside their extents, the two-level batched merge of
`merge_in_batches` returns exactly the single whole-sequence merge. -/
theorem mergeInBatches_eq_mergeAll {V : Type} (tiles : List (Raster V)) (bs : ℕ)
    (hp : ∀ r ∈ tiles, r.Proper) :
    merge_in_batches (tiles.map some) bs = mergeRasters tiles := by
  unfold merge_in_batches
  rw [chunks_map, List.filterMap_map]
  have hcongr : (chunks bs tiles).filterMap
        ((fun b => mergeRasters (openAll b)) ∘ List.map some) =
      (chunks bs tiles).filterMap (fun c => some (mergedRaster c)) := by
    apply List.filterMap_congr
    intro c hc
    show mergeRasters (openAll (c.map some)) = some (mergedRaster c)
    rw [openAll_map_some, mergeRasters_of_ne_nil (mem_chunks_ne_nil bs tiles hc)]
  rw [hcongr]
  have hmap : (chunks bs tiles).filterMap (fun c => some (mergedRaster c)) =
      (chunks bs tiles).map mergedRaster := by
    exact congrFun (List.filterMap_eq_map mergedRaster) (chunks bs tiles)
  rw [hmap]
  rw [mergeRasters_map_merged (chunks bs tiles)
    (fun c hc => mem_chunks_ne_nil bs tiles hc)
    (fun c hc r hr => hp r (by rw [← flatten_chunks bs tiles]; exact List.mem_flatten.mpr ⟨c, hc, hr⟩))]
  rw [flatten_chunks]

theorem firstSome_mem {V : Type} {l : List (Option V)} {v : V}
    (h : firstSome l = some v) : some v ∈ l := by
  induction l with
  | nil => simp [firstSome] at h
  | cons o rest ih =>
      cases o with
      | some w =>
          simp only [firstSome, Option.some.injEq] at h
          simp [h]
      | none =>
          simp only [firstSome] at h
          exact List.mem_cons_of_mem _ (ih h)

/-! ## Lemmas about the tile enumerator -/

theorem mem_rangeZ {a b i : ℤ} : i ∈ rangeZ a b ↔ a ≤ i ∧ i ≤ b := by
  unfold rangeZ
  constructor
  · intro h
    rcases List.mem_map.mp h with ⟨k, hk, rfl⟩
    rw [List.mem_range] at hk
    omega
  · rintro ⟨h1, h2⟩
    refine List.mem_map.mpr ⟨(i - a).toNat, ?_, ?_⟩
    · rw [List.mem_range]; omega
    · omega

theorem rangeZ_sorted (a b : ℤ) : (rangeZ a b).Pairwise (· < ·) := by
  unfold rangeZ
  have h := List.pairwise_lt_range (b + 1 - a).toNat
  exact List.Pairwise.map _ (fun i j (hij : i < j) => by omega) h

theorem tileIndex_nonneg (z : ℕ) (c : ℚ) : 0 ≤ tileIndex z c := by
  unfold tileIndex clipIndex
  have hpos : (0 : ℤ) < 2 ^ z := pow_pos (by norm_num) z
  omega

theorem tileIndex_lt (z : ℕ) (c : ℚ) : tileIndex z c < 2 ^ z := by
  unfold tileIndex clipIndex
  have hpos : (0 : ℤ) < 2 ^ z := pow_pos (by norm_num) z
  omega

theorem tileIndex_mono (z : ℕ) {c d : ℚ} (h : c ≤ d) :
    tileIndex z c ≤ tileIndex z d := by
  unfold tileIndex clipIndex
  have hf : ⌊(2 ^ z : ℚ) * c⌋ ≤ ⌊(2 ^ z : ℚ) * d⌋ := by
    apply Int.floor_le_floor
    have hp : (0 : ℚ) ≤ 2 ^ z := by positivity
    exact mul_le_mul_of_nonneg_left h hp
  omega

theorem tileIndex_footprint (z : ℕ) {p : ℚ} (h0 : 0 ≤ p) (h1 : p ≤ 1) :
    ((tileIndex z p : ℤ) : ℚ) / 2 ^ z ≤ p ∧
      p ≤ (((tileIndex z p : ℤ) : ℚ) + 1) / 2 ^ z := by
  have hpow : (0 : ℚ) < 2 ^ z := by positivity
  have hcast : ((2 ^ z : ℤ) : ℚ) = (2 ^ z : ℚ) := by push_cast; ring
  have hge : (0 : ℤ) ≤ ⌊(2 ^ z : ℚ) * p⌋ :=
    Int.floor_nonneg.mpr (mul_nonneg hpow.le h0)
  have hle : ⌊(2 ^ z : ℚ) * p⌋ ≤ (2 ^ z : ℤ) := by
    have h2 : ⌊(2 ^ z : ℚ) * p⌋ ≤ ⌊(2 ^ z : ℚ)⌋ :=
      Int.floor_le_floor (by nlinarith)
    have h3 : ⌊(2 ^ z : ℚ)⌋ = (2 ^ z : ℤ) := by
      rw [← hcast, Int.floor_intCast]
    omega
  by_cases hcase : ⌊(2 ^ z : ℚ) * p⌋ ≤ 2 ^ z - 1
  · have hti : tileIndex z p = ⌊(2 ^ z : ℚ) * p⌋ := by
      unfold tileIndex clipIndex
      omega
    rw [hti]
    have hfl : ((⌊(2 ^ z : ℚ) * p⌋ : ℤ) : ℚ) ≤ (2 ^ z : ℚ) * p := Int.floor_le _
    have hfu : (2 ^ z : ℚ) * p < ((⌊(2 ^ z : ℚ) * p⌋ : ℤ) : ℚ) + 1 :=
      Int.lt_floor_add_one _
    constructor
    · rw [div_le_iff₀ hpow]; nlinarith
    · rw [le_div_iff₀ hpow]; nlinarith
  · have hn : ⌊(2 ^ z : ℚ) * p⌋ = 2 ^ z := by omega
    have hp1 : p = 1 := by
      have h4 : ((2 ^ z : ℤ) : ℚ) ≤ (2 ^ z : ℚ) * p := by
        rw [← hn]; exact Int.floor_le _
      rw [hcast] at h4
      nlinarith
    have hti : tileIndex z p = 2 ^ z - 1 := by
      unfold tileIndex clipIndex
      omega
    rw [hti, hp1]
    constructor
    · rw [div_le_iff₀ hpow]; push_cast; nlinarith
    · rw [le_div_iff₀ hpow]; push_cast; nlinarith

theorem mem_enumerateTiles {z : ℕ} {b : BoundsN} {c r : ℤ} :
    (c, r) ∈ enumerateTiles z b ↔
      (tileIndex z b.west ≤ c ∧ c ≤ tileIndex z b.east) ∧
      tileIndex z b.north ≤ r ∧ r ≤ tileIndex z b.south := by
  unfold enumerateTiles
  rw [List.mem_flatMap]
  constructor
  · rintro ⟨r', hr', hc⟩
    rcases List.mem_map.mp hc with ⟨c', hc', heq⟩
    simp only [Prod.mk.injEq] at heq
    obtain ⟨rfl, rfl⟩ := heq
    exact ⟨mem_rangeZ.mp hc', mem_rangeZ.mp hr'⟩
  · rintro ⟨hc, hr⟩
    exact ⟨r, mem_rangeZ.mpr hr, List.mem_map.mpr ⟨c, mem_rangeZ.mpr hc, rfl⟩⟩

theorem pairwise_flatMap_rowMajor (rows cols : List ℤ)
    (hr : rows.Pairwise (· < ·)) (hc : cols.Pairwise (· < ·)) :
    (rows.flatMap (fun r => cols.map (fun c => (c, r)))).Pairwise rowMajorLt := by
  induction rows with
  | nil => simp
  | cons r rest ih =>
      rw [List.flatMap_cons, List.pairwise_append]
      rw [List.pairwise_cons] at hr
      refine ⟨?_, ih hr.2, ?_⟩
      · exact List.Pairwise.map _ (fun i j h => Or.inr ⟨rfl, h⟩) hc
      · intro a ha p hp
        rcases List.mem_map.mp ha with ⟨c1, _, rfl⟩
        rcases List.mem_flatMap.mp hp with ⟨r2, hr2, hp2⟩
        rcases List.mem_map.mp hp2 with ⟨c2, _, rfl⟩
        exact Or.inl (hr.1 r2 hr2)

theorem enumerateTiles_sorted_rowMajor (z : ℕ) (b : BoundsN) :
    (enumerateTiles z b).Pairwise rowMajorLt :=
  pairwise_flatMap_rowMajor _ _ (rangeZ_sorted _ _) (rangeZ_sorted _ _)

theorem enumerateTiles_nodup (z : ℕ) (b : BoundsN) : (enumerateTiles z b).Nodup := by
  apply List.Pairwise.imp ?_ (enumerateTiles_sorted_rowMajor z b)
  intro a b h
  rcases h with h | ⟨_, h⟩ <;>
    exact fun hab => by cases hab; omega

/-! ## Lemmas about the fetch pipeline -/

theorem raise_for_status_ok {r r2 : HttpResponse}
    (h : raise_for_status r = Except.ok r2) :
    r2 = r ∧ ¬(400 ≤ r.status ∧ r.status < 600) := by
  unfold raise_for_status at h
  by_cases hc : 400 ≤ r.status ∧ r.status < 600
  · rw [if_pos hc] at h; cases h
  · rw [if_neg hc] at h; cases h; exact ⟨rfl, hc⟩

theorem download_body_ok_shape {t : Tile} {env : FetchEnv} {st : SavedTile}
    (hok : download_body t env = Except.ok st) :
    st.key = t ∧ st.transform = mkTransform t st.img ∧
    ∃ r, env.get = Except.ok r ∧ raise_for_status r = Except.ok r ∧
      env.decode r.content = Except.ok st.img ∧
      env.writeTiff st = Except.ok () := by
  unfold download_body at hok
  split at hok
  next e heq => simp at hok
  next resp hget =>
    split at hok
    next e hrs => simp at hok
    next resp2 hrs =>
      obtain ⟨rfl, -⟩ := raise_for_status_ok hrs
      split at hok
      next e hdec => simp at hok
      next img hdec =>
        split at hok
        next e hw => simp at hok
        next u hw =>
          cases hok
          exact ⟨rfl, rfl, resp2, hget, hrs, hdec, by rw [hw]⟩

theorem constRaster_proper (re : Rect) (v : ℕ) : (constRaster re v).Proper := by
  intro x y h
  simp only [constRaster] at h ⊢
  rw [h]
  simp

/-! ## Claims about the tile enumerator -/

/-- C6: Enumerator soundness — for every bounding box with west ≤ east
and north ≤ south in the normalized Web-Mercator plane (latitudes in
the valid range, so both axes lie in [0,1]) and every zoom level, the
enumeration is non-empty and duplicate-free, every coordinate's column
and row lie in [0, 2^zoom), and the enumerated tile footprints cover
every point of the box. -/
theorem C6_enumerator_sound (z : ℕ) (b : BoundsN)
    (hx : b.west ≤ b.east) (hy : b.north ≤ b.south)
    (h0 : 0 ≤ b.west) (h1 : b.east ≤ 1) (h2 : 0 ≤ b.north) (h3 : b.south ≤ 1) :
    enumerateTiles z b ≠ []
    ∧ (enumerateTiles z b).Nodup
    ∧ (∀ cr ∈ enumerateTiles z b,
        0 ≤ cr.1 ∧ cr.1 < 2 ^ z ∧ 0 ≤ cr.2 ∧ cr.2 < 2 ^ z)
    ∧ (∀ p q : ℚ, b.west ≤ p → p ≤ b.east → b.north ≤ q → q ≤ b.south →
        ∃ cr ∈ enumerateTiles z b, inFootprint z cr.1 cr.2 p q) := by
  refine ⟨?_, enumerateTiles_nodup z b, ?_, ?_⟩
  · apply List.ne_nil_of_mem (a := (tileIndex z b.west, tileIndex z b.north))
    exact mem_enumerateTiles.mpr
      ⟨⟨le_refl _, tileIndex_mono z hx⟩, le_refl _, tileIndex_mono z hy⟩
  · rintro ⟨c, r⟩ hcr
    obtain ⟨⟨hc1, hc2⟩, hr1, hr2⟩ := mem_enumerateTiles.mp hcr
    refine ⟨le_trans (tileIndex_nonneg z b.west) hc1,
      lt_of_le_of_lt hc2 (tileIndex_lt z b.east),
      le_trans (tileIndex_nonneg z b.north) hr1,
      lt_of_le_of_lt hr2 (tileIndex_lt z b.south)⟩
  · intro p q hp1 hp2 hq1 hq2
    refine ⟨(tileIndex z p, tileIndex z q), ?_, ?_⟩
    · exact mem_enumerateTiles.mpr
        ⟨⟨tileIndex_mono z hp1, tileIndex_mono z hp2⟩,
          tileIndex_mono z hq1, tileIndex_mono z hq2⟩
    · obtain ⟨ha, hb⟩ := tileIndex_footprint z (le_trans h0 hp1) (le_trans hp2 h1)
      obtain ⟨hc, hd⟩ := tileIndex_footprint z (le_trans h2 hq1) (le_trans hq2 h3)
      exact ⟨ha, hb, hc, hd⟩

theorem C6_witness :
    enumerateTiles 1 ⟨0, 1, 1, 0⟩ ≠ [] ∧ (enumerateTiles 1 ⟨0, 1, 1, 0⟩).Nodup := by
  have h := C6_enumerator_sound 1 ⟨0, 1, 1, 0⟩ (by norm_num) (by norm_num)
    (by norm_num) (by norm_num) (by norm_num) (by norm_num)
  exact ⟨h.1, h.2.1⟩

/-- C7: Enumeration determinism and order — the enumerator is a pure
function of box and zoom (determinism is inherent to the model), and
its output is strictly ascending in the row-major order: every later
coordinate has a larger row, or the same row and a larger column. -/
theorem C7_enumeration_row_major (z : ℕ) (b : BoundsN) :
    (enumerateTiles z b).Pairwise rowMajorLt :=
  enumerateTiles_sorted_rowMajor z b

/-- C8: Degenerate-point enumeration — a bounding box degenerate to a
single point enumerates exactly one tile coordinate: the index pair of
the point, at every zoom level. -/
theorem C8_degenerate_point (z : ℕ) (x y : ℚ) :
    enumerateTiles z ⟨x, y, x, y⟩ = [(tileIndex z x, tileIndex z y)] := by
  unfold enumerateTiles
  have hr : ∀ a : ℤ, rangeZ a a = [a] := by
    intro a
    unfold rangeZ
    have h1 : (a + 1 - a).toNat = 1 := by omega
    rw [h1]
    simp [List.range_succ]
  simp only [hr]
  simp

/-! ## Claims about the fetch pipeline -/

/-- C9: Georeferencing invariant — for every successfully fetched tile,
the affine transform built by the fetch step maps the four corners of
the image's pixel grid exactly onto the tile's geographic bounds in the
normalized plane: pixel (0,0) to (west, north), (width,0) to
(east, north), (0,height) to (west, south) and (width,height) to
(east, south). -/
theorem C9_transform_corners (t : Tile) (env : FetchEnv) (st : SavedTile)
    (hok : download_body t env = Except.ok st)
    (hw : 0 < st.img.width) (hh : 0 < st.img.height) :
    st.transform.apply 0 0 = ((tileBoundsN t).west, (tileBoundsN t).north)
    ∧ st.transform.apply st.img.width 0 = ((tileBoundsN t).east, (tileBoundsN t).north)
    ∧ st.transform.apply 0 st.img.height = ((tileBoundsN t).west, (tileBoundsN t).south)
    ∧ st.transform.apply st.img.width st.img.height
        = ((tileBoundsN t).east, (tileBoundsN t).south) := by
  obtain ⟨-, htr, -⟩ := download_body_ok_shape hok
  have hW0 : (st.img.width : ℚ) ≠ 0 := Nat.cast_ne_zero.mpr hw.ne'
  have hH0 : (st.img.height : ℚ) ≠ 0 := Nat.cast_ne_zero.mpr hh.ne'
  rw [htr]
  unfold mkTransform from_bounds AffineT.apply
  refine ⟨?_, ?_, ?_, ?_⟩ <;> simp only [Prod.mk.injEq] <;> constructor <;>
    field_simp

theorem C9_witness :
    0 < stW.img.width ∧
    stW.transform.apply 0 0 =
      ((tileBoundsN ⟨1, 0, 0⟩).west, (tileBoundsN ⟨1, 0, 0⟩).north) := by
  have h := C9_transform_corners ⟨1, 0, 0⟩ envW stW rfl (by decide) (by decide)
  exact ⟨by decide, h.1⟩

/-- C3: Fetch totality — for every tile, URL endpoint behaviour, decode
behaviour and storage behaviour, `download_and_save_tile` never lets an
error escape: it always resolves to `some` saved tile (Success) or
`none` (Failure); each failure mode — raised network error, HTTP error
status, decode error, write error — yields `none`, and `some` happens
exactly on the fully successful path. -/
theorem C3_fetch_totality (t : Tile) (env : FetchEnv) :
    ((∃ st, download_and_save_tile t env = some st) ∨
      download_and_save_tile t env = none)
    ∧ (∀ e, env.get = Except.error e → download_and_save_tile t env = none)
    ∧ (∀ r, env.get = Except.ok r → 400 ≤ r.status → r.status < 600 →
        download_and_save_tile t env = none)
    ∧ (∀ r e, env.get = Except.ok r → raise_for_status r = Except.ok r →
        env.decode r.content = Except.error e →
        download_and_save_tile t env = none)
    ∧ (∀ r img e, env.get = Except.ok r → raise_for_status r = Except.ok r →
        env.decode r.content = Except.ok img →
        env.writeTiff ⟨t, img, mkTransform t img⟩ = Except.error e →
        download_and_save_tile t env = none)
    ∧ (∀ st, download_and_save_tile t env = some st →
        st.key = t ∧ st.transform = mkTransform t st.img ∧
        ∃ r, env.get = Except.ok r ∧ raise_for_status r = Except.ok r ∧
          env.decode r.content = Except.ok st.img ∧
          env.writeTiff st = Except.ok ()) := by
  refine ⟨?_, ?_, ?_, ?_, ?_, ?_⟩
  · cases h : download_and_save_tile t env with
    | some st => exact Or.inl ⟨st, rfl⟩
    | none => exact Or.inr rfl
  · intro e he
    simp only [download_and_save_tile, download_body, he]
  · intro r hg h4 h6
    have hrs : raise_for_status r = Except.error "HTTPError" := by
      unfold raise_for_status
      rw [if_pos ⟨h4, h6⟩]
    simp only [download_and_save_tile, download_body, hg, hrs]
  · intro r e hg hrs hdec
    simp only [download_and_save_tile, download_body, hg, hrs, hdec]
  · intro r img e hg hrs hdec hw
    simp only [download_and_save_tile, download_body, hg, hrs, hdec, hw]
  · intro st hst
    unfold download_and_save_tile at hst
    split at hst
    next hok =>
      cases hst
      exact download_body_ok_shape hok
    next hbad => cases hst

theorem C3_witness :
    download_and_save_tile ⟨1, 0, 0⟩
      ⟨Except.error "timeout", fun _ => Except.error "decode",
        fun _ => Except.ok ()⟩ = none :=
  (C3_fetch_totality ⟨1, 0, 0⟩ _).2.1 "timeout" rfl

/-- C4: Failure isolation and reporting — in every fan-out run each
submitted tile resolves (successes and failures together account for
every job, so no failure aborts the batch), every failing tile is
reported as its (coordinate, reason) pair and contributes nothing to
the merge input, every merge input comes from a successful fetch, and
the post-fetch driver yields the caller exactly one of: the no-images
outcome, the terminal merge/save error, or a written mosaic. -/
theorem C4_failure_isolation {V : Type} (jobs : List (Tile × FetchEnv)) :
    ((runFetches jobs).1.length + (runFetches jobs).2.length = jobs.length)
    ∧ (∀ t envf e, (t, envf) ∈ jobs → download_body t envf = Except.error e →
        (t, e) ∈ (runFetches jobs).2)
    ∧ (∀ st ∈ (runFetches jobs).1,
        ∃ t envf, (t, envf) ∈ jobs ∧ download_body t envf = Except.ok st)
    ∧ (∀ (openPath : String → Option (Raster V)) (paths : List String),
        mainAfterFetch openPath paths = MainResult.noImages ∨
        mainAfterFetch openPath paths = MainResult.mergeError ∨
        ∃ m, mainAfterFetch openPath paths = MainResult.written m) := by
  refine ⟨?_, ?_, ?_, ?_⟩
  · induction jobs with
    | nil => rfl
    | cons j rest ih =>
        simp only [runFetches, download_and_save_tile, List.filterMap_cons] at ih ⊢
        cases hb : download_body j.1 j.2 with
        | error e => simp only [hb, List.length_cons]; omega
        | ok st => simp only [hb, List.length_cons]; omega
  · intro t envf e hmem hb
    refine List.mem_filterMap.mpr ⟨(t, envf), hmem, ?_⟩
    simp only [hb]
  · intro st hst
    rcases List.mem_filterMap.mp hst with ⟨j, hj, hsome⟩
    refine ⟨j.1, j.2, hj, ?_⟩
    unfold download_and_save_tile at hsome
    split at hsome
    next hok => cases hsome; exact hok
    next hbad => cases hsome
  · intro openPath paths
    unfold mainAfterFetch
    by_cases hp : paths.isEmpty
    · rw [if_pos hp]; exact Or.inl rfl
    · rw [if_neg hp]
      cases hmb : merge_in_batches (paths.map openPath) 500 with
      | none => exact Or.inr (Or.inl rfl)
      | some m => exact Or.inr (Or.inr ⟨m, rfl⟩)

theorem C4_witness :
    (⟨1, 0, 0⟩, "boom") ∈
      (runFetches [(⟨1, 0, 0⟩,
        ⟨Except.error "boom", fun _ => Except.error "decode",
          fun _ => Except.ok ()⟩)]).2 := by
  exact (C4_failure_isolation (V := ℕ) _).2.1 ⟨1, 0, 0⟩
    ⟨Except.error "boom", fun _ => Except.error "decode", fun _ => Except.ok ()⟩
    "boom" (List.mem_singleton.mpr rfl) rfl

/-! ## Claims about the merge -/

/-- C1: Merge associativity — for every sequence of proper (openable)
georeferenced tiles and every batch size ≥ 1, the two-level batched
reduction of `merge_in_batches` produces exactly the single
whole-sequence merge: same output extent (hence transform) and
pixel-identical contents; in particular merging [A,B,C,D] with batch
size 2 ([A,B], then [C,D], then the two batch mosaics) equals the
one-pass merge of all four, for any overlap pattern. -/
theorem C1_merge_in_batches_associative {V : Type} (tiles : List (Raster V))
    (bs : ℕ) (_hbs : 1 ≤ bs) (hp : ∀ r ∈ tiles, r.Proper) :
    merge_in_batches (tiles.map some) bs = mergeRasters tiles :=
  mergeInBatches_eq_mergeAll tiles bs hp

theorem C1_witness :
    1 ≤ 2 ∧
    merge_in_batches ([constRaster ⟨0, 0, 2, 2⟩ 10, constRaster ⟨1, 0, 3, 2⟩ 20,
        constRaster ⟨0, 1, 2, 3⟩ 30, constRaster ⟨1, 1, 3, 3⟩ 40].map some) 2 =
      mergeRasters [constRaster ⟨0, 0, 2, 2⟩ 10, constRaster ⟨1, 0, 3, 2⟩ 20,
        constRaster ⟨0, 1, 2, 3⟩ 30, constRaster ⟨1, 1, 3, 3⟩ 40] := by
  refine ⟨by norm_num, C1_merge_in_batches_associative _ 2 (by norm_num) ?_⟩
  intro r hr
  simp only [List.mem_cons, List.not_mem_nil, or_false] at hr
  rcases hr with rfl | rfl | rfl | rfl <;> exact constRaster_proper _ _

/-- C2: Overlap compositing rule — at any pixel of a successful merge
of proper tiles: if some tile carries a sample there and every tile
before it in the input ordering is empty there, the output equals that
first tile's sample (a later overlapping tile never overwrites it);
every output sample is the sample of some input tile (never an
average); and the output is empty exactly when every input is. -/
theorem C2_overlap_first_wins {V : Type} (ds : List (Raster V)) (m : Raster V)
    (hm : mergeRasters ds = some m) (hp : ∀ r ∈ ds, r.Proper) (x y : ℤ) :
    (∀ pre t post v, ds = pre ++ t :: post →
        (∀ r ∈ pre, r.px x y = none) → t.px x y = some v → m.px x y = some v)
    ∧ (∀ v, m.px x y = some v → ∃ r ∈ ds, r.px x y = some v)
    ∧ (m.px x y = none ↔ ∀ r ∈ ds, r.px x y = none) := by
  have hne : ds ≠ [] := by
    intro h
    rw [h] at hm
    cases hm
  rw [mergeRasters_of_ne_nil hne] at hm
  injection hm with hm2
  subst hm2
  have hpx := mergedRaster_px hp x y
  refine ⟨?_, ?_, ?_⟩
  · intro pre t post v hds hnone hsome
    subst hds
    rw [hpx, List.map_append, firstSome_append]
    have h1 : firstSome (pre.map (fun d => d.px x y)) = none := by
      rw [firstSome_eq_none_iff]
      intro o ho
      rcases List.mem_map.mp ho with ⟨r, hr, rfl⟩
      exact hnone r hr
    rw [h1]
    simp [firstSome, hsome]
  · intro v hv
    rw [hpx] at hv
    rcases List.mem_map.mp (firstSome_mem hv) with ⟨r, hr, hgr⟩
    exact ⟨r, hr, hgr⟩
  · rw [hpx, firstSome_eq_none_iff]
    constructor
    · intro h r hr
      exact h _ (List.mem_map.mpr ⟨r, hr, rfl⟩)
    · intro h o ho
      rcases List.mem_map.mp ho with ⟨r, hr, rfl⟩
      exact h r hr

theorem C2_witness :
    (mergedRaster [constRaster ⟨0, 0, 2, 2⟩ 5, constRaster ⟨1, 0, 3, 2⟩ 9]).px 1 0
      = some 5 := by
  have h := C2_overlap_first_wins
    [constRaster ⟨0, 0, 2, 2⟩ 5, constRaster ⟨1, 0, 3, 2⟩ 9]
    (mergedRaster [constRaster ⟨0, 0, 2, 2⟩ 5, constRaster ⟨1, 0, 3, 2⟩ 9]) rfl
    (by
      intro r hr
      simp only [List.mem_cons, List.not_mem_nil, or_false] at hr
      rcases hr with rfl | rfl <;> exact constRaster_proper _ _) 1 0
  exact h.1 [] (constRaster ⟨0, 0, 2, 2⟩ 5) [constRaster ⟨1, 0, 3, 2⟩ 9] 5 rfl
    (by intro r hr; cases hr) (by decide)

/-- C10: Implicit single-group identity — when a non-empty tile list
fits in a single batch (length ≤ batchSize) and every tile opens, the
chunking loop produces exactly one group, the second-level merge of the
single persisted batch mosaic is an identity on proper rasters
(persist-and-reload is modelled as the identity), and
`merge_in_batches` coincides with merging the tiles directly in one
pass, extent (transform) included. -/
theorem C10_single_batch_identity {V : Type} (tiles : List (Raster V)) (bs : ℕ)
    (h0 : tiles ≠ []) (hlen : tiles.length ≤ bs) (hp : ∀ r ∈ tiles, r.Proper) :
    chunks bs (tiles.map some) = [tiles.map some]
    ∧ (∀ m : Raster V, m.Proper → mergeRasters [m] = some m)
    ∧ merge_in_batches (tiles.map some) bs = mergeRasters tiles := by
  refine ⟨?_, ?_, mergeInBatches_eq_mergeAll tiles bs hp⟩
  · exact chunks_eq_single (by simpa using h0) (by simpa using hlen)
  · intro m hm
    rw [mergeRasters_of_ne_nil (by simp)]
    congr 1
    apply Raster.eq_of
    · rfl
    · intro x y
      rw [mergedRaster_px ?hp x y]
      case hp =>
        intro r hr
        rw [List.mem_singleton] at hr
        subst hr
        exact hm
      simp only [List.map_cons, List.map_nil]
      cases hpx : m.px x y <;> simp [firstSome]

theorem C10_witness :
    chunks 500 ([constRaster ⟨0, 0, 2, 2⟩ 7].map some) =
      [[some (constRaster ⟨0, 0, 2, 2⟩ 7)]]
    ∧ merge_in_batches ([constRaster ⟨0, 0, 2, 2⟩ 7].map some) 500 =
        mergeRasters [constRaster ⟨0, 0, 2, 2⟩ 7] := by
  have h := C10_single_batch_identity [constRaster ⟨0, 0, 2, 2⟩ 7] 500
    (by simp) (by simp)
    (by
      intro r hr
      rw [List.mem_singleton] at hr
      subst hr
      exact constRaster_proper _ _)
  exact ⟨h.1, h.2.2⟩

/-- C5 counterexample: in the end-to-end scenario with zero
successfully fetched tiles the driver returns the early no-images
outcome — the merge is never invoked — which is a different outcome
from the merge-error the claim asserts. -/
theorem C5_counterexample :
    mainAfterFetch (V := ℕ) (fun _ => none) [] = MainResult.noImages
    ∧ (MainResult.noImages : MainResult ℕ) ≠ MainResult.mergeError := by
  refine ⟨rfl, ?_⟩
  intro h
  cases h

/-- C5 (amended): `merge_in_batches` fails — the final merge of an
empty batch-mosaic list raises, modelled as `none` — whenever its input
sequence is empty or no input can be opened; in the end-to-end scenario
with zero successfully fetched tiles the driver returns early with the
no-images outcome, never invoking the merge, and no output file is
written. -/
theorem C5_merge_failure_contract {V : Type} (tiles : List (Option (Raster V)))
    (bs : ℕ) (h : tiles = [] ∨ ∀ o ∈ tiles, o = none) :
    merge_in_batches tiles bs = none
    ∧ ∀ openPath : String → Option (Raster V),
        mainAfterFetch openPath [] = MainResult.noImages := by
  refine ⟨?_, fun _ => rfl⟩
  unfold merge_in_batches
  rcases h with rfl | hall
  · rw [chunks_nil]
    rfl
  · have hfm : (chunks bs tiles).filterMap (fun b => mergeRasters (openAll b)) = [] := by
      rw [List.filterMap_eq_nil_iff]
      intro c hc
      have hopen : openAll c = [] := by
        rw [openAll, List.filterMap_eq_nil_iff]
        intro o ho
        have hmem : o ∈ tiles := by
          rw [← flatten_chunks bs tiles]
          exact List.mem_flatten.mpr ⟨c, hc, ho⟩
        simpa using hall o hmem
      rw [hopen]
      rfl
    rw [hfm]
    rfl

theorem C5_witness :
    merge_in_batches [(none : Option (Raster ℕ)), none] 500 = none :=
  (C5_merge_failure_contract [none, none] 500 (Or.inr (by simp))).1

end PlanetDownloader
